import Mathlib

/-!
Verification of the BinSpec binary-parsing library.

This file shallowly embeds the library's core:
  * the bit-converter utilities `bits_to_bytes` / `bits_to_int`
    (binspec/utilities/utilities.py),
  * the descriptor variants (`SpecType` subclasses in binspec/types/spec_type.py),
  * the `Specification` session / bit cursor (binspec/spec.py),
and proves or refutes the specification claims about them.

Python machine-level details are modelled explicitly:
  * bytes are naturals; a byte stream is a `List Nat` with a read position;
  * exceptions are `Except PyErr`;
  * the sentinel values of `Specification.__current_byte`
    (`-1` before the first read, `None` after permissive exhaustion)
    become the three-state `CurrentByte`.
-/

set_option autoImplicit false

namespace BinSpec

/-- Exception kinds raised by the Python code.  `specEofError` carries the
`self.__byte_offset` value interpolated into its message. -/
inductive PyErr where
  | specError
  | specTypeError
  | specEofError (bytesCited : Nat)
  | typeError
  | valueError
  | nameError
  | indexError
deriving DecidableEq

/-! ## Bit converter (binspec/utilities/utilities.py) -/

/-- Inner loop of `bits_to_bytes`: `byte <<= 1` then `byte |= 1` for a set bit.
`byte <<< 1` has a clear low bit, so `(byte <<< 1) ||| 1 = byte * 2 + 1`; we use
the arithmetic form `byte * 2 + (if bit = 0 then 0 else 1)` directly.
The source's early-`break` branches only cut the chunk at `len(bits)`, which the
`take 8` chunking below realises, and never execute an extra shift (the guarded
"theoretically impossible edge case" needs an empty chunk, which cannot occur). -/
def byteFromBits (chunk : List Nat) : Nat :=
  chunk.foldl (fun byte bit => byte * 2 + (if bit = 0 then 0 else 1)) 0

/-- One iteration of the inner shifting loop of `bits_to_bytes`:
`byte_right >>= 1; if byte_left & 1: byte_right |= 128; byte_left >>= 1`. -/
def shiftOnce (p : Nat × Nat) : Nat × Nat :=
  let r := p.1 >>> 1
  let r := if p.2 &&& 1 ≠ 0 then r ||| 128 else r
  (r, p.2 >>> 1)

/-- `for i in range(excess_count)` applications of `shiftOnce`. -/
def shiftIter : Nat → Nat × Nat → Nat × Nat
  | 0, p => p
  | e + 1, p => shiftIter e (shiftOnce p)

/-- `bits_to_bytes(bits, big_endian)` from utilities.py.  A `bits` entry is one
bit (`0` or nonzero).  The `bytearray` item assignment `b[-1] <<= excess_count`
raises `ValueError` when the shifted value exceeds 255; the pair cascade reads
from the captured `list(reversed(b))`, so both writes into `shifted_b` use the
original byte values and the later right-write overwrites the earlier
left-write of the same slot. -/
def bits_to_bytes (bits : List Nat) (big_endian : Bool) : Except PyErr (List Nat) :=
  let bits := if big_endian then bits else bits.reverse
  let byte_count := (bits.length + 7) / 8
  let b := (List.range byte_count).map (fun i => byteFromBits ((bits.drop (8 * i)).take 8))
  if 1 < byte_count ∧ bits.length % 8 ≠ 0 then
    let excess_count := bits.length % 8
    let shifted_last := (b.getLast?.getD 0) <<< excess_count
    if 255 < shifted_last then .error .valueError
    else
      let b := b.set (byte_count - 1) shifted_last
      let rev := b.reverse
      let shifted_b := (List.range (rev.length - 1)).foldl
        (fun acc i =>
          let pr := shiftIter excess_count (rev.getD i 0, rev.getD (i + 1) 0)
          (acc.set i pr.1).set (i + 1) pr.2)
        (List.replicate rev.length 0)
      .ok shifted_b.reverse
  else .ok b

/-- `int.from_bytes(b, byteorder="big")`. -/
def from_bytes_big (b : List Nat) : Nat :=
  b.foldl (fun acc byte => acc * 256 + byte) 0

/-- `bits_to_int(bits, big_endian)` from utilities.py. -/
def bits_to_int (bits : List Nat) (big_endian : Bool) : Except PyErr Nat :=
  (bits_to_bytes bits big_endian).map from_bytes_big

/-! ## Reference encoder and bit-sequence value

The spec's round-trip property compares `bits_to_int` against "a reference
integer→bits encoder".  `natToBits v len` is that reference encoding,
most-significant bit first; the little-endian convention of this library
reverses the bit order. -/

/-- Modelled from the spec: reference big-endian (MSB-first) encoding of
`value` into `len` bits. -/
def natToBits (value len : Nat) : List Nat :=
  (List.range len).map (fun i => value / 2 ^ (len - 1 - i) % 2)

/-- Modelled from the spec: reference encoder under the library's endianness
convention (`big_endian = false` reverses the bit order). -/
def intToBits (value len : Nat) (big_endian : Bool) : List Nat :=
  if big_endian then natToBits value len else (natToBits value len).reverse

/-- The unsigned integer denoted by an MSB-first bit sequence. -/
def bitsVal (l : List Nat) : Nat :=
  l.foldl (fun a b => 2 * a + b) 0

/-! ## Descriptors (binspec/types/spec_type.py)

The built-in `SpecType` subclasses, plus `custom` for the open extension
point (any object with `get_bit_length` and `parse`).  `Int8/16/32/64` are
`Int` with a fixed byte count and need no separate constructors; `String` and
`Packed` are not touched by any claim and are omitted.  Python `int` fields
are `Int` (they may be negative); parsed values are `Value`. -/

/-- Python objects produced by `parse`. -/
inductive Value where
  | int (n : Nat)
  | bool (b : Bool)
  | bytes (bs : List Nat)
  | list (vs : List Value)

/-- The descriptor variants.  `custom` carries an arbitrary bit length and
parse function, modelling user-defined SpecTypes. -/
inductive SpecType where
  | int (bytesArg bitsArg : Int) (big_endian : Bool)
  | bool (single_bit : Bool)
  | bytesT (count : Int) (big_endian : Bool)
  | bits (count : Int)
  | array (spec_type : SpecType) (length : Int)
  | custom (bit_length : Int) (parse_fn : List Nat → Except PyErr Value)

/-- `get_bit_length` of each variant.  `Array` stores
`spec_type.get_bit_length()` at construction and multiplies by `length`. -/
def get_bit_length : SpecType → Int
  | .int bytesArg bitsArg _ => bitsArg + bytesArg * 8
  | .bool single_bit => if single_bit then 1 else 8
  | .bytesT count _ => count * 8
  | .bits _count => _count
  | .array t len => get_bit_length t * len
  | .custom bl _ => bl

/-- `Array.parse`'s loop: slice `bits[i*il:(i+1)*il]` and parse each slice,
propagating exceptions.  `p` is the element parse, `il` the stored item
bit length. -/
def parseSlices (p : List Nat → Except PyErr Value) (il : Nat) (l : List Nat) :
    Nat → Nat → Except PyErr (List Value)
  | 0, _ => .ok []
  | n + 1, i =>
    match p ((l.drop (il * i)).take il) with
    | .error e => .error e
    | .ok v =>
      match parseSlices p il l n (i + 1) with
      | .error e => .error e
      | .ok vs => .ok (v :: vs)

/-- `parse` of each variant.  `Bool(single_bit)` reads `bits[0]`
(an `IndexError` on empty input); byte-wide `Bool` is
`any(b != 0 for b in bits) != 0`.  `Array.parse` iterates `range(length)`
(empty for a negative length, matching Python `range`). -/
def parse : SpecType → List Nat → Except PyErr Value
  | .int _ _ be, bits => (bits_to_int bits be).map Value.int
  | .bool single_bit, bits =>
    if single_bit then
      match bits with
      | [] => .error .indexError
      | b :: _ => .ok (.bool (b != 0))
    else .ok (.bool (bits.any (fun b => b != 0)))
  | .bytesT _ be, bits => (bits_to_bytes bits be).map Value.bytes
  | .bits _, bits => .ok (.bytes bits)
  | .array t len, bits =>
    (parseSlices (fun chunk => parse t chunk) (get_bit_length t).toNat bits len.toNat 0).map
      Value.list
  | .custom _ f, bits => f bits

/-! ## The Specification session and bit cursor (binspec/spec.py) -/

/-- The three states of `Specification.__current_byte`: `-1` before the first
read, a loaded byte value, or `None` after a permissive exhaustion. -/
inductive CurrentByte where
  | notStarted
  | loaded (b : Nat)
  | exhausted
deriving DecidableEq

/-- State of one `Specification`: the underlying `BytesIO` (its bytes and read
position), the optional history list, whether a middleware callback was
configured, and the cursor fields `__bit_offset`, `__byte_offset`,
`__current_byte`.  History labels are opaque caller objects, modelled as
`Option Nat`. -/
structure SpecState where
  data : List Nat
  pos : Nat
  history : Option (List (SpecType × Value × Option Nat))
  middleware : Bool
  bit_offset : Nat
  byte_offset : Nat
  current_byte : CurrentByte

/-- `Specification.__init__`: history is `[]` when tracking is enabled and
`None` otherwise; all cursor fields start at their sentinels. -/
def mkSpec (stream : List Nat) (track_history middleware : Bool) : SpecState :=
  { data := stream
    pos := 0
    history := if track_history then some [] else none
    middleware := middleware
    bit_offset := 0
    byte_offset := 0
    current_byte := .notStarted }

/-- `Specification.get_history` returns `self.__history` as-is. -/
def get_history (s : SpecState) : Option (List (SpecType × Value × Option Nat)) :=
  s.history

/-- `Specification.is_history_enabled`. -/
def is_history_enabled (s : SpecState) : Bool :=
  s.history.isSome

/-- The `while count > 0` loop of `Specification.__take_bits`, entered with
the current byte already loaded (or already `None`).  Python semantics kept
exactly: when `bit_offset` reaches 8 the next byte is read first (on strict
exhaustion the `SpecEofError` escapes only after `bit_offset` was reset
to 0); the bit is then `(current_byte << bit_offset) & 128`, appended as
`bit >> 7`.  Reading `None << bit_offset` on an exhausted cursor is a Python
`TypeError`.  The `notStarted` arm is unreachable from `takeBits` (which
always loads a byte first); Python would compute `(-1 << k) & 128`,
which is `128` for `k ≤ 7` and `0` beyond. -/
def takeLoop (none_at_eof : Bool) :
    Nat → SpecState → List Nat → (Except PyErr (Option (List Nat))) × SpecState
  | 0, s, acc => (.ok (some acc), s)
  | n + 1, s, acc =>
    if s.bit_offset = 8 then
      match s.data.get? s.pos with
      | some b =>
        takeLoop none_at_eof n
          { s with bit_offset := 0 + 1, pos := s.pos + 1, current_byte := .loaded b }
          (acc ++ [((b <<< 0) &&& 128) >>> 7])
      | none =>
        if none_at_eof then (.ok none, { s with bit_offset := 0, current_byte := .exhausted })
        else (.error (.specEofError s.byte_offset), { s with bit_offset := 0 })
    else
      match s.current_byte with
      | .loaded b =>
        takeLoop none_at_eof n { s with bit_offset := s.bit_offset + 1 }
          (acc ++ [((b <<< s.bit_offset) &&& 128) >>> 7])
      | .exhausted => (.error .typeError, s)
      | .notStarted =>
        takeLoop none_at_eof n { s with bit_offset := s.bit_offset + 1 }
          (acc ++ [if s.bit_offset ≤ 7 then 1 else 0])

/-- `Specification.__take_bits(count, none_at_eof)`.  If the current byte is
the `-1` sentinel, `next_byte()` runs first: a successful `stream.read(1)`
loads the byte; at end of stream the permissive mode stores `None` and the
strict mode raises `SpecEofError` citing `self.__byte_offset`.  The mutated
state accompanies the result, including on exceptions. -/
def takeBits (s : SpecState) (count : Nat) (none_at_eof : Bool) :
    (Except PyErr (Option (List Nat))) × SpecState :=
  match s.current_byte with
  | .notStarted =>
    match s.data.get? s.pos with
    | some b => takeLoop none_at_eof count { s with pos := s.pos + 1, current_byte := .loaded b } []
    | none =>
      if none_at_eof then (.ok none, { s with current_byte := .exhausted })
      else (.error (.specEofError s.byte_offset), s)
  | _ => takeLoop none_at_eof count s []

/-- `Specification.expect`.  Rejects a negative bit length, takes the bits,
returns `None` on permissive exhaustion (before parsing, history and
middleware), parses, appends to history when enabled, then — the source's
line 66 — calls `middleware(spec_type, value)`: `middleware` is an undefined
global name there (the configured callback lives in `self.middleware`), so a
configured middleware makes every successful parse raise `NameError` instead
of invoking the callback. -/
def expect (s : SpecState) (spec_type : SpecType) (none_at_eof : Bool) (label : Option Nat) :
    (Except PyErr (Option Value)) × SpecState :=
  let bit_length := get_bit_length spec_type
  if bit_length < 0 then (.error .specTypeError, s)
  else
    match takeBits s bit_length.toNat none_at_eof with
    | (.error e, s1) => (.error e, s1)
    | (.ok none, s1) => (.ok none, s1)
    | (.ok (some bits), s1) =>
      match parse spec_type bits with
      | .error e => (.error e, s1)
      | .ok v =>
        let s2 :=
          if s1.history.isSome then
            { s1 with history := some (s1.history.getD [] ++ [(spec_type, v, label)]) }
          else s1
        if s2.middleware then (.error .nameError, s2)
        else (.ok (some v), s2)

/-- `Specification.assert_eof`: a one-byte probe.  A readable byte advances
the stream and raises `SpecEofError` citing `self.__byte_offset`. -/
def assert_eof (s : SpecState) : (Except PyErr Unit) × SpecState :=
  match s.data.get? s.pos with
  | some _ => (.error (.specEofError s.byte_offset), { s with pos := s.pos + 1 })
  | none => (.ok (), s)

/-- `Specification.fail`. -/
def fail (_s : SpecState) : Except PyErr Unit :=
  .error .specError

/-- The cursor-position order of the monotonicity invariant: the stream
position never moves back and the overall bit position
`8 * pos + bit_offset` never decreases. -/
def cursorLE (s t : SpecState) : Prop :=
  s.pos ≤ t.pos ∧ 8 * s.pos + s.bit_offset ≤ 8 * t.pos + t.bit_offset

/-- Adjacent pairs of a list, combined with `f` (the `create_pairs` generator,
with `f` receiving `(byte_right, byte_left)` in list order). -/
def pairsMap (f : Nat → Nat → Nat) (l : List Nat) : List Nat :=
  List.zipWith f l l.tail

/-- Big-endian view of the 4-bit right shift with carry: the byte after
`prev` becomes its own high nibble preceded by `prev`'s low nibble. -/
def carryShift4 : Nat → List Nat → List Nat
  | _, [] => []
  | prev, x :: rest => (x / 16 + prev % 16 * 16) :: carryShift4 x rest

/-- Stream-exhausted outcomes of `__take_bits`: the strict `SpecEofError` or
the permissive absent result. -/
def isEofTake : Except PyErr (Option (List Nat)) → Prop
  | .error (.specEofError _) => True
  | .ok none => True
  | _ => False

/-- Stream-exhausted outcomes of `expect`. -/
def isEofOutcome : Except PyErr (Option Value) → Prop
  | .error (.specEofError _) => True
  | .ok none => True
  | _ => False

/-- One public call on a `Specification`, relating the state before to the
state after (errors included: the mutated state survives a raised
exception). -/
inductive SpecStep : SpecState → SpecState → Prop where
  | expectStep (s : SpecState) (t : SpecType) (ne : Bool) (lbl : Option Nat) :
      SpecStep s (expect s t ne lbl).2
  | assertEofStep (s : SpecState) : SpecStep s (assert_eof s).2

/-- A call that does not end in a stream-exhausted outcome. -/
inductive GoodStep : SpecState → SpecState → Prop where
  | expectStep (s : SpecState) (t : SpecType) (ne : Bool) (lbl : Option Nat)
      (h : ¬ isEofOutcome (expect s t ne lbl).1) : GoodStep s (expect s t ne lbl).2
  | assertEofStep (s : SpecState) : GoodStep s (assert_eof s).2

/-! ## Claim theorems: concrete scenarios -/

/-- C3.  The cursor yields bits in stream order, most-significant bit of each
byte first: on the stream `[0b10001001, 0b11110000]`, `Int(bits=4)` parses 8,
a second `Int(bits=4)` parses 9, and `Int(bytes=1)` then parses 240
(endianness is applied during conversion, not extraction). -/
theorem claim_c3_cursor_bit_order :
    (expect (mkSpec [137, 240] true false) (.int 0 4 true) false none).1 = .ok (some (.int 8))
    ∧ (expect (expect (mkSpec [137, 240] true false) (.int 0 4 true) false none).2
        (.int 0 4 true) false none).1 = .ok (some (.int 9))
    ∧ (expect (expect (expect (mkSpec [137, 240] true false) (.int 0 4 true) false none).2
        (.int 0 4 true) false none).2 (.int 1 0 true) false none).1 = .ok (some (.int 240)) :=
  ⟨rfl, rfl, rfl⟩

/-- C4.  A `Specification` constructed with a middleware callback never
invokes it: `expect` line 66 reads the undefined global name `middleware`
instead of `self.middleware`, so every successful parse raises `NameError`
(after the history append) instead of calling the callback and returning the
value. -/
theorem claim_c4_middleware_never_invoked :
    (expect (mkSpec [0] true true) (.int 1 0 true) false none).1 = .error .nameError
    ∧ (expect (mkSpec [0] true true) (.int 1 0 true) false none).2.history
        = some [(.int 1 0 true, .int 0, none)] :=
  ⟨rfl, rfl⟩

/-- C5.  `self.__byte_offset` is never incremented, so after consuming one
whole byte a strict exhausted read, and an `assert_eof` that finds a byte,
both cite 0 bytes rather than the true count 1. -/
theorem claim_c5_byte_count_always_zero :
    (expect (mkSpec [7] true false) (.int 1 0 true) false none).2.pos = 1
    ∧ (expect (expect (mkSpec [7] true false) (.int 1 0 true) false none).2
        (.bits 1) false none).1 = .error (.specEofError 0)
    ∧ (expect (mkSpec [7, 8] true false) (.int 1 0 true) false none).2.pos = 1
    ∧ (assert_eof (expect (mkSpec [7, 8] true false) (.int 1 0 true) false none).2).1
        = .error (.specEofError 0) :=
  ⟨rfl, rfl, rfl, rfl⟩

/-- C6.  On an exhausted stream the first permissive `expect` returns the
absent value with no history entry, but it leaves `__current_byte = None`,
and the next permissive `expect` evaluates `None << bit_offset` — a
`TypeError` — instead of returning `None` again, so the permissive EOF
signal does not survive repetition. -/
theorem claim_c6_second_permissive_read_type_error :
    (expect (mkSpec [] true false) (.bits 1) true none).1 = .ok none
    ∧ (expect (mkSpec [] true false) (.bits 1) true none).2.history = some []
    ∧ (expect (expect (mkSpec [] true false) (.bits 1) true none).2
        (.bits 1) true none).1 = .error .typeError :=
  ⟨rfl, rfl, rfl⟩

/-- C7 counterexample.  On a fresh `Specification` over an empty stream,
`expect(Array(d, 0))` does not yield an empty result: `__take_bits` eagerly
loads the first byte even for a zero-bit request, raising the strict
stream-exhausted error (and returning the absent value in permissive mode). -/
theorem claim_c7_counterexample :
    (expect (mkSpec [] true false) (.array (.bits 1) 0) false none).1
        = .error (.specEofError 0)
    ∧ (expect (mkSpec [] true false) (.array (.bits 1) 0) true none).1 = .ok none :=
  ⟨rfl, rfl⟩

/-- C8.  `Bool` parse semantics: one bit when `single_bit` (nonzero test of
that bit), otherwise a whole byte that is true exactly when any bit is set;
the byte `0b10000000` (low bit clear) parses true, and `0b11001100` under
`Array(Bool(single_bit=True), 8)` parses `[T,T,F,F,T,T,F,F]`. -/
theorem claim_c8_bool_semantics :
    get_bit_length (.bool true) = 1 ∧ get_bit_length (.bool false) = 8
    ∧ (∀ b rest, parse (.bool true) (b :: rest) = .ok (.bool true) ↔ b ≠ 0)
    ∧ (∀ bits, parse (.bool false) bits = .ok (.bool true) ↔ ∃ x ∈ bits, x ≠ 0)
    ∧ (expect (mkSpec [128] true false) (.bool false) false none).1 = .ok (some (.bool true))
    ∧ (expect (mkSpec [204] true false) (.array (.bool true) 8) false none).1
        = .ok (some (.list [.bool true, .bool true, .bool false, .bool false,
            .bool true, .bool true, .bool false, .bool false])) :=
  ⟨rfl, rfl,
    fun b rest => by simp [parse],
    fun bits => by simp [parse, List.any_eq_true],
    rfl, rfl⟩

/-- C9 counterexample.  A strict stream-exhausted failure in the middle of a
read resets the sub-byte bit offset from 4 back to 0 without advancing the
byte, so the cursor position is not monotonic, and the next call re-delivers
the four bits that had already left the cursor. -/
theorem claim_c9_counterexample :
    (expect (mkSpec [255] true false) (.bits 4) false none).2.pos = 1
    ∧ (expect (mkSpec [255] true false) (.bits 4) false none).2.bit_offset = 4
    ∧ (expect (expect (mkSpec [255] true false) (.bits 4) false none).2
        (.bits 8) false none).2.pos = 1
    ∧ (expect (expect (mkSpec [255] true false) (.bits 4) false none).2
        (.bits 8) false none).2.bit_offset = 0
    ∧ ¬ cursorLE (expect (mkSpec [255] true false) (.bits 4) false none).2
        (expect (expect (mkSpec [255] true false) (.bits 4) false none).2
          (.bits 8) false none).2
    ∧ (expect (expect (expect (mkSpec [255] true false) (.bits 4) false none).2
        (.bits 8) false none).2 (.bits 4) false none).1 = .ok (some (.bytes [1, 1, 1, 1])) :=
  ⟨rfl, rfl, rfl, rfl, by unfold cursorLE; decide, rfl⟩

/-- C1 counterexample.  The round trip fails for multi-byte lengths whose
remainder mod 8 is not 4: 9 bits encoding 256 decode to 16384 (the shift
cascade shifts by `8 - excess` value positions instead of `excess`), and 13
bits encoding 8 raise a `ValueError` (`b[-1] <<= 5` overflows the bytearray
cell), so `bits_to_int` neither round-trips nor returns normally on all
lengths 0–64. -/
theorem claim_c1_counterexample :
    bits_to_int (intToBits 256 9 true) true = .ok 16384
    ∧ bits_to_int (intToBits 8 13 true) true = .error .valueError
    ∧ (16384 : Nat) ≠ 256 :=
  ⟨rfl, rfl, by decide⟩

/-- C2 counterexample.  For twelve set bits, big-endian `bits_to_bytes`
returns `[0x0F, 0xFF]`: the second byte's low nibble carries the four
remainder bits (here `0xF ≠ 0`); the unused zero nibble is the high nibble
of the first byte, not the low nibble of the second. -/
theorem claim_c2_counterexample :
    bits_to_bytes (List.replicate 12 1) true = .ok [15, 255]
    ∧ (255 : Nat) % 16 ≠ 0 :=
  ⟨rfl, by decide⟩

/-! ## Values of bit and byte sequences -/

theorem bitsVal_nil : bitsVal [] = 0 := rfl

theorem bitsVal_foldl (l : List Nat) : ∀ a : Nat,
    l.foldl (fun x b => 2 * x + b) a = a * 2 ^ l.length + bitsVal l := by
  induction l with
  | nil => intro a; simp [bitsVal]
  | cons h t ih =>
    intro a
    have ht : bitsVal (h :: t) = h * 2 ^ t.length + bitsVal t := by
      show List.foldl _ (2 * 0 + h) t = _
      rw [ih (2 * 0 + h)]
      ring_nf
    simp only [List.foldl_cons, List.length_cons, ht, ih (2 * a + h)]
    ring

theorem bitsVal_cons (h : Nat) (t : List Nat) :
    bitsVal (h :: t) = h * 2 ^ t.length + bitsVal t := by
  show List.foldl _ (2 * 0 + h) t = _
  rw [bitsVal_foldl]
  ring_nf

theorem bitsVal_append (l₁ l₂ : List Nat) :
    bitsVal (l₁ ++ l₂) = bitsVal l₁ * 2 ^ l₂.length + bitsVal l₂ := by
  unfold bitsVal
  rw [List.foldl_append, bitsVal_foldl]
  rfl

theorem bitsVal_lt (l : List Nat) (h : ∀ x ∈ l, x < 2) : bitsVal l < 2 ^ l.length := by
  induction l with
  | nil => simp [bitsVal]
  | cons b t ih =>
    have hb : b < 2 := h b (List.mem_cons_self b t)
    have ht := ih (fun x hx => h x (List.mem_cons_of_mem b hx))
    rw [bitsVal_cons]
    have : 2 ^ (b :: t).length = 2 * 2 ^ t.length := by
      rw [List.length_cons, pow_succ]; ring
    rw [this]
    nlinarith

theorem byteFromBits_eq (l : List Nat) (h : ∀ x ∈ l, x < 2) :
    byteFromBits l = bitsVal l := by
  unfold byteFromBits bitsVal
  induction l with
  | nil => rfl
  | cons b t ih =>
    have hb : b < 2 := h b (List.mem_cons_self b t)
    have hstep : ∀ a : Nat, a * 2 + (if b = 0 then 0 else 1) = 2 * a + b := by
      intro a; interval_cases b <;> simp <;> ring
    simp only [List.foldl_cons, hstep]
    have := congrArg (fun r => r) (ih (fun x hx => h x (List.mem_cons_of_mem b hx)))
    -- both folds over `t` agree from any pair of equal initial accumulators
    clear ih
    have general : ∀ (t' : List Nat), (∀ x ∈ t', x < 2) → ∀ a : Nat,
        t'.foldl (fun byte bit => byte * 2 + (if bit = 0 then 0 else 1)) a
          = t'.foldl (fun x bb => 2 * x + bb) a := by
      intro t'
      induction t' with
      | nil => intro _ a; rfl
      | cons c u ihu =>
        intro hu a
        have hc : c < 2 := hu c (List.mem_cons_self c u)
        have : a * 2 + (if c = 0 then 0 else 1) = 2 * a + c := by
          interval_cases c <;> simp <;> ring
        simp only [List.foldl_cons, this]
        exact ihu (fun x hx => hu x (List.mem_cons_of_mem c hx)) _
    exact general t (fun x hx => h x (List.mem_cons_of_mem b hx)) _

theorem byteFromBits_lt (l : List Nat) (h : ∀ x ∈ l, x < 2) (h8 : l.length ≤ 8) :
    byteFromBits l < 256 := by
  rw [byteFromBits_eq l h]
  calc bitsVal l < 2 ^ l.length := bitsVal_lt l h
    _ ≤ 2 ^ 8 := Nat.pow_le_pow_right (by norm_num) h8
    _ = 256 := by norm_num

theorem from_bytes_big_foldl (l : List Nat) : ∀ a : Nat,
    l.foldl (fun acc byte => acc * 256 + byte) a = a * 256 ^ l.length + from_bytes_big l := by
  induction l with
  | nil => intro a; simp [from_bytes_big]
  | cons h t ih =>
    intro a
    have ht : from_bytes_big (h :: t) = h * 256 ^ t.length + from_bytes_big t := by
      show List.foldl _ (0 * 256 + h) t = _
      rw [ih (0 * 256 + h)]
      ring_nf
    simp only [List.foldl_cons, List.length_cons, ht, ih (a * 256 + h)]
    ring

theorem from_bytes_big_cons (h : Nat) (t : List Nat) :
    from_bytes_big (h :: t) = h * 256 ^ t.length + from_bytes_big t := by
  show List.foldl _ (0 * 256 + h) t = _
  rw [from_bytes_big_foldl]
  ring_nf

theorem from_bytes_big_append (l₁ l₂ : List Nat) :
    from_bytes_big (l₁ ++ l₂) = from_bytes_big l₁ * 256 ^ l₂.length + from_bytes_big l₂ := by
  unfold from_bytes_big
  rw [List.foldl_append, from_bytes_big_foldl]
  rfl

/-! ## The reference encoder -/

theorem natToBits_length (v len : Nat) : (natToBits v len).length = len := by
  simp [natToBits]

theorem natToBits_lt_two (v len : Nat) : ∀ x ∈ natToBits v len, x < 2 := by
  intro x hx
  simp only [natToBits, List.mem_map] at hx
  obtain ⟨i, _, rfl⟩ := hx
  exact Nat.mod_lt _ (by norm_num)

theorem natToBits_succ (v len : Nat) :
    natToBits v (len + 1) = (v / 2 ^ len % 2) :: natToBits v len := by
  simp only [natToBits, List.range_succ_eq_map, List.map_cons, List.map_map]
  congr 1
  apply List.map_congr_left
  intro i _
  simp only [Function.comp_apply]
  have hi : len + 1 - 1 - (i + 1) = len - 1 - i := by omega
  rw [hi]

theorem chunk_val : ∀ (m : Nat) (bits : List Nat), (∀ x ∈ bits, x < 2) → bits.length = 8 * m →
    from_bytes_big ((List.range m).map (fun i => byteFromBits ((bits.drop (8 * i)).take 8)))
      = bitsVal bits := by
  intro m
  induction m with
  | zero =>
    intro bits _ hlen
    have hnil : bits = [] := List.eq_nil_of_length_eq_zero (by omega)
    subst hnil; rfl
  | succ m ih =>
    intro bits hb hlen
    simp only [List.range_succ_eq_map, List.map_cons, List.map_map]
    have hmap : List.map ((fun i => byteFromBits ((bits.drop (8 * i)).take 8)) ∘ Nat.succ)
        (List.range m)
        = List.map (fun i => byteFromBits (((bits.drop 8).drop (8 * i)).take 8)) (List.range m) := by
      apply List.map_congr_left
      intro i _
      simp only [Function.comp_apply, List.drop_drop]
      have h8 : 8 + 8 * i = 8 * (i + 1) := by ring
      rw [h8]
    rw [hmap, from_bytes_big_cons]
    have hlen8 : (bits.drop 8).length = 8 * m := by
      rw [List.length_drop]; omega
    rw [ih (bits.drop 8) (fun x hx => hb x (List.mem_of_mem_drop hx)) hlen8]
    rw [List.length_map, List.length_range]
    have h0 : (8 : Nat) * 0 = 0 := by ring
    rw [h0, List.drop_zero]
    rw [byteFromBits_eq _ (fun x hx => hb x (List.mem_of_mem_take hx))]
    conv_rhs => rw [← List.take_append_drop 8 bits]
    rw [bitsVal_append, hlen8]
    rw [show (256 : Nat) ^ m = 2 ^ (8 * m) by rw [pow_mul]; norm_num]

theorem bits_to_int_aligned (m : Nat) (bits : List Nat) (hb : ∀ x ∈ bits, x < 2)
    (hlen : bits.length = 8 * m) : bits_to_int bits true = .ok (bitsVal bits) := by
  have hbc : (bits.length + 7) / 8 = m := by omega
  have hmod : ¬ (1 < m ∧ bits.length % 8 ≠ 0) := by omega
  unfold bits_to_int bits_to_bytes
  simp only [if_true, hbc]
  rw [if_neg hmod]
  simp only [Except.map]
  exact congrArg Except.ok (chunk_val m bits hb hlen)

theorem bits_to_int_short (bits : List Nat) (hb : ∀ x ∈ bits, x < 2)
    (hlen : bits.length ≤ 8) : bits_to_int bits true = .ok (bitsVal bits) := by
  rcases Nat.eq_zero_or_pos bits.length with h0 | hpos
  · exact bits_to_int_aligned 0 bits hb (by omega)
  · have hbc : (bits.length + 7) / 8 = 1 := by omega
    have hguard : ¬ ((1 : Nat) < 1 ∧ bits.length % 8 ≠ 0) := by omega
    unfold bits_to_int bits_to_bytes
    simp only [if_true, hbc]
    rw [if_neg hguard]
    have hr1 : List.range 1 = [0] := by simp [List.range_succ]
    simp only [hr1, List.map_cons, List.map_nil, Nat.mul_zero, List.drop_zero, Except.map]
    rw [List.take_of_length_le hlen, byteFromBits_eq _ hb]
    show Except.ok (0 * 256 + bitsVal bits) = _
    rw [Nat.zero_mul, Nat.zero_add]

/-! ## The shifting cascade of `bits_to_bytes` -/

theorem lor128 : ∀ x : Nat, x < 128 → x ||| 128 = x + 128 := by decide

theorem shiftOnce_eq (r l : Nat) (h : r < 256) :
    shiftOnce (r, l) = (r / 2 + l % 2 * 128, l / 2) := by
  unfold shiftOnce
  simp only [Nat.shiftRight_eq_div_pow, pow_one, Nat.and_one_is_mod]
  rcases Nat.mod_two_eq_zero_or_one l with h2 | h2 <;>
    simp [h2, lor128 (r / 2) (by omega)]

theorem shiftIter_four (r l : Nat) (h : r < 256) :
    shiftIter 4 (r, l) = (r / 16 + l % 16 * 16, l / 16) := by
  have b1 : r / 2 + l % 2 * 128 < 256 := by omega
  have b2 : (r / 2 + l % 2 * 128) / 2 + l / 2 % 2 * 128 < 256 := by omega
  have b3 : ((r / 2 + l % 2 * 128) / 2 + l / 2 % 2 * 128) / 2 + l / 2 / 2 % 2 * 128 < 256 := by
    omega
  rw [show shiftIter 4 (r, l) = shiftIter 3 (shiftOnce (r, l)) from rfl, shiftOnce_eq r l h]
  rw [show ∀ p, shiftIter 3 p = shiftIter 2 (shiftOnce p) from fun _ => rfl,
    shiftOnce_eq _ _ b1]
  rw [show ∀ p, shiftIter 2 p = shiftIter 1 (shiftOnce p) from fun _ => rfl,
    shiftOnce_eq _ _ b2]
  rw [show ∀ p, shiftIter 1 p = shiftIter 0 (shiftOnce p) from fun _ => rfl,
    shiftOnce_eq _ _ b3]
  rw [show ∀ p, shiftIter 0 p = p from fun _ => rfl]
  simp only [Prod.mk.injEq]
  constructor <;> omega

theorem shiftIter_snd : ∀ (e : Nat) (p : Nat × Nat), (shiftIter e p).2 = p.2 / 2 ^ e := by
  intro e
  induction e with
  | zero => intro p; simp [shiftIter]
  | succ e ih =>
    intro p
    rw [show shiftIter (e + 1) p = shiftIter e (shiftOnce p) from rfl, ih]
    have h2 : (shiftOnce p).2 = p.2 / 2 := by
      unfold shiftOnce
      simp [Nat.shiftRight_eq_div_pow]
    rw [h2, Nat.div_div_eq_div_mul]
    congr 1
    rw [pow_succ]
    ring

theorem set_append_len {α : Type} (xs : List α) (y : α) (zs : List α) (a : α) :
    (xs ++ y :: zs).set xs.length a = xs ++ a :: zs := by
  induction xs with
  | nil => rfl
  | cons x xs ih => simp only [List.cons_append, List.length_cons, List.set_cons_succ, ih]

theorem set_append_idx {α : Type} (xs : List α) (y : α) (zs : List α) (a : α) (i : Nat)
    (h : i = xs.length) : (xs ++ y :: zs).set i a = xs ++ a :: zs := by
  subst h
  exact set_append_len xs y zs a

theorem getD_append_len (xs : List Nat) (a : Nat) (ys : List Nat) (i : Nat)
    (h : i = xs.length) : (xs ++ a :: ys).getD i 0 = a := by
  subst h
  induction xs with
  | nil => rfl
  | cons x xs ih => simpa using ih

theorem getD_tail (l : List Nat) (k : Nat) : l.tail.getD k 0 = l.getD (k + 1) 0 := by
  cases l <;> simp

theorem zipWith_getD (f : Nat → Nat → Nat) :
    ∀ (xs ys : List Nat) (k : Nat), k < xs.length → k < ys.length →
    (List.zipWith f xs ys).getD k 0 = f (xs.getD k 0) (ys.getD k 0) := by
  intro xs
  induction xs with
  | nil => intro ys k h _; simp at h
  | cons x xs ih =>
    intro ys k hx hy
    cases ys with
    | nil => simp at hy
    | cons y ys =>
      cases k with
      | zero => simp
      | succ k =>
        simp only [List.zipWith_cons_cons, List.getD_cons_succ]
        exact ih ys k (by simpa using hx) (by simpa using hy)

theorem take_succ_getD (l : List Nat) (k : Nat) (hk : k < l.length) :
    l.take (k + 1) = l.take k ++ [l.getD k 0] := by
  rw [List.take_succ, List.getElem?_eq_getElem hk]
  simp [List.getD_eq_getElem?_getD, List.getElem?_eq_getElem hk]

theorem pairsMap_length (f : Nat → Nat → Nat) (l : List Nat) :
    (pairsMap f l).length = l.length - 1 := by
  simp only [pairsMap, List.length_zipWith, List.length_tail]
  omega

theorem pairsMap_getD (f : Nat → Nat → Nat) (l : List Nat) (k : Nat) (hk : k + 1 < l.length) :
    (pairsMap f l).getD k 0 = f (l.getD k 0) (l.getD (k + 1) 0) := by
  rw [pairsMap, zipWith_getD f l l.tail k (by omega) (by rw [List.length_tail]; omega),
    getD_tail]

/-- After processing pairs `0..k-1`, `shifted_b` holds the combined right
values in its first `k` slots, the last left value in slot `k`, and zeros
beyond.  The generator reads the captured original list, so each slot's final
value comes from the adjacent pair alone. -/
theorem cascade_fold (e : Nat) (l : List Nat) :
    ∀ k : Nat, 1 ≤ k → k ≤ l.length - 1 →
    (List.range k).foldl
      (fun acc i =>
        (acc.set i (shiftIter e (l.getD i 0, l.getD (i + 1) 0)).1).set (i + 1)
          (shiftIter e (l.getD i 0, l.getD (i + 1) 0)).2)
      (List.replicate l.length 0)
    = (pairsMap (fun a b => (shiftIter e (a, b)).1) l).take k
        ++ (shiftIter e (l.getD (k - 1) 0, l.getD k 0)).2
          :: List.replicate (l.length - k - 1) 0 := by
  intro k
  induction k with
  | zero => intro h; omega
  | succ k ih =>
    intro _ hk1
    by_cases hk0 : k = 0
    · subst hk0
      have hn : 2 ≤ l.length := by omega
      have hrange : List.range 1 = [0] := by simp [List.range_succ]
      rw [hrange]
      simp only [List.foldl_cons, List.foldl_nil]
      have hrep : List.replicate l.length (0 : Nat)
          = 0 :: 0 :: List.replicate (l.length - 2) 0 := by
        rw [show l.length = l.length - 2 + 1 + 1 by omega]
        simp only [List.replicate_succ]
        rw [show l.length - 2 + 1 + 1 - 2 = l.length - 2 by omega]
      rw [hrep]
      simp only [List.set_cons_zero, List.set_cons_succ]
      have htake : (pairsMap (fun a b => (shiftIter e (a, b)).1) l).take 1
          = [(shiftIter e (l.getD 0 0, l.getD 1 0)).1] := by
        have h1 : (0 : Nat) < (pairsMap (fun a b => (shiftIter e (a, b)).1) l).length := by
          rw [pairsMap_length]; omega
        rw [show (1 : Nat) = 0 + 1 from rfl, take_succ_getD _ 0 h1, List.take_zero,
          pairsMap_getD _ _ 0 (by omega)]
        rfl
      rw [htake]
      simp only [List.cons_append, List.nil_append]
      rw [show l.length - 2 = l.length - (0 + 1) - 1 by omega]
    · have hk1' : 1 ≤ k := by omega
      have hkn : k ≤ l.length - 1 := by omega
      have hT : ((pairsMap (fun a b => (shiftIter e (a, b)).1) l).take k).length = k := by
        rw [List.length_take, pairsMap_length]; omega
      rw [List.range_succ, List.foldl_append, ih hk1' hkn]
      simp only [List.foldl_cons, List.foldl_nil]
      rw [set_append_idx _ _ _ _ k hT.symm]
      rw [show ((pairsMap (fun a b => (shiftIter e (a, b)).1) l).take k)
            ++ (shiftIter e (l.getD k 0, l.getD (k + 1) 0)).1
              :: List.replicate (l.length - k - 1) 0
          = ((pairsMap (fun a b => (shiftIter e (a, b)).1) l).take k
            ++ [(shiftIter e (l.getD k 0, l.getD (k + 1) 0)).1])
              ++ List.replicate (l.length - k - 1) 0 by simp]
      rw [show l.length - k - 1 = (l.length - k - 2) + 1 by omega, List.replicate_succ]
      rw [set_append_idx _ _ _ _ (k + 1) (by simp [hT])]
      have htake1 : (pairsMap (fun a b => (shiftIter e (a, b)).1) l).take (k + 1)
          = (pairsMap (fun a b => (shiftIter e (a, b)).1) l).take k
            ++ [(shiftIter e (l.getD k 0, l.getD (k + 1) 0)).1] := by
        rw [take_succ_getD _ k (by rw [pairsMap_length]; omega),
          pairsMap_getD _ _ k (by omega)]
      rw [← htake1]
      rw [show l.length - k - 2 = l.length - (k + 1) - 1 by omega]
      rfl

/-- The whole shifting section: processing all `len - 1` pairs turns
`shifted_b` into the pairwise rights followed by the final left shifted
right. -/
theorem cascade_eq (e : Nat) (l : List Nat) (h2 : 2 ≤ l.length) :
    (List.range (l.length - 1)).foldl
      (fun acc i =>
        (acc.set i (shiftIter e (l.getD i 0, l.getD (i + 1) 0)).1).set (i + 1)
          (shiftIter e (l.getD i 0, l.getD (i + 1) 0)).2)
      (List.replicate l.length 0)
    = pairsMap (fun a b => (shiftIter e (a, b)).1) l
        ++ [l.getD (l.length - 1) 0 / 2 ^ e] := by
  rw [cascade_fold e l (l.length - 1) (by omega) (le_refl _)]
  rw [show (pairsMap (fun a b => (shiftIter e (a, b)).1) l).take (l.length - 1)
      = pairsMap (fun a b => (shiftIter e (a, b)).1) l by
    rw [← pairsMap_length (fun a b => (shiftIter e (a, b)).1) l]
    exact List.take_length _]
  rw [show l.length - (l.length - 1) - 1 = 0 by omega]
  rw [shiftIter_snd]
  rfl

theorem carryShift4_length : ∀ (rest : List Nat) (prev : Nat),
    (carryShift4 prev rest).length = rest.length := by
  intro rest
  induction rest with
  | nil => intro prev; rfl
  | cons x rest ih => intro prev; simp [carryShift4, ih]

theorem carryShift4_lt : ∀ (rest : List Nat) (prev : Nat), (∀ x ∈ rest, x < 256) →
    ∀ y ∈ carryShift4 prev rest, y < 256 := by
  intro rest
  induction rest with
  | nil => intro prev _ y hy; simp [carryShift4] at hy
  | cons x rest ih =>
    intro prev h y hy
    simp only [carryShift4, List.mem_cons] at hy
    rcases hy with rfl | hy
    · have hx : x < 256 := h x (List.mem_cons_self x rest)
      omega
    · exact ih x (fun z hz => h z (List.mem_cons_of_mem x hz)) y hy

theorem pairsMap_concat (f : Nat → Nat → Nat) :
    ∀ (L : List Nat) (a x : Nat),
    pairsMap f (a :: L ++ [x]) = pairsMap f (a :: L) ++ [f (L.getLastD a) x] := by
  intro L
  induction L with
  | nil => intro a x; rfl
  | cons b L ih =>
    intro a x
    have ih' := ih b x
    simp only [pairsMap, List.cons_append, List.tail_cons, List.zipWith_cons_cons] at ih' ⊢
    rw [List.getLastD_cons, ih']

theorem pairsMap_concat_ne (f : Nat → Nat → Nat) (L : List Nat) (hne : L ≠ []) (x : Nat) :
    pairsMap f (L ++ [x]) = pairsMap f L ++ [f (L.getLastD 0) x] := by
  cases L with
  | nil => exact absurd rfl hne
  | cons a L =>
    rw [show (a :: L) ++ [x] = a :: L ++ [x] from rfl, pairsMap_concat]
    cases L with
    | nil => rfl
    | cons b L => simp only [List.getLastD_cons]

/-- Reversing the pairwise rights of the reversed byte list gives the
big-endian carry shift. -/
theorem rev_pairs_carry : ∀ (rest : List Nat) (b0 : Nat), b0 < 256 →
    (∀ x ∈ rest, x < 256) →
    (pairsMap (fun a b => (shiftIter 4 (a, b)).1) ((b0 :: rest).reverse)).reverse
      = carryShift4 b0 rest := by
  intro rest
  induction rest with
  | nil => intro b0 _ _; rfl
  | cons y rest ih =>
    intro b0 hb0 hr
    have hy : y < 256 := hr y (List.mem_cons_self y rest)
    have hrest : ∀ x ∈ rest, x < 256 := fun x hx => hr x (List.mem_cons_of_mem y hx)
    have hlast : ((y :: rest).reverse).getLastD 0 = y := by
      rw [List.getLastD_eq_getLast?, List.getLast?_reverse]
      rfl
    rw [show (b0 :: y :: rest).reverse = (y :: rest).reverse ++ [b0] by simp]
    rw [pairsMap_concat_ne _ _ (by simp) b0, hlast, List.reverse_append, ih y hy hrest]
    show ((shiftIter 4 (y, b0)).1) :: carryShift4 y rest = carryShift4 b0 (y :: rest)
    rw [shiftIter_four y b0 hy]
    rfl

/-- Folding the byte accumulator over the carry-shifted tail: the result,
re-multiplied by 16 and with the dropped low nibble of the last byte added,
is the fold over the original tail with the carry folded into the
accumulator. -/
theorem carryShift4_val : ∀ (rest : List Nat) (prev a : Nat),
    (List.foldl (fun acc byte => acc * 256 + byte) a (carryShift4 prev rest)) * 16
        + (rest.getLastD prev) % 16
      = List.foldl (fun acc byte => acc * 256 + byte) (a * 16 + prev % 16) rest := by
  intro rest
  induction rest with
  | nil => intro prev a; rfl
  | cons x rest ih =>
    intro prev a
    show (List.foldl _ (a * 256 + (x / 16 + prev % 16 * 16)) (carryShift4 x rest)) * 16
        + ((x :: rest).getLastD prev) % 16 = _
    rw [List.getLastD_cons, ih x (a * 256 + (x / 16 + prev % 16 * 16))]
    show _ = List.foldl _ ((a * 16 + prev % 16) * 256 + x) rest
    congr 1
    omega

/-- The mod-4 remainder case of `bits_to_bytes`: for `8 * m + 4` bits the
pre-shift of the last byte stays in range, the cascade shifts the array right
by four bit positions, and the resulting bytes carry exactly the big-endian
value of the input bits. -/
theorem btb_mod4 (m : Nat) (bits : List Nat) (hm : 1 ≤ m) (hb : ∀ x ∈ bits, x < 2)
    (hlen : bits.length = 8 * m + 4) :
    ∃ out, bits_to_bytes bits true = .ok out
      ∧ (∀ y ∈ out, y < 256) ∧ out.length = m + 1
      ∧ from_bytes_big out = bitsVal bits := by
  have hbc : (bits.length + 7) / 8 = m + 1 := by omega
  have hmod : bits.length % 8 = 4 := by omega
  have hdroplen : (bits.drop (8 * m)).length = 4 := by
    rw [List.length_drop]; omega
  have htail : (bits.drop (8 * m)).take 8 = bits.drop (8 * m) :=
    List.take_of_length_le (by omega)
  have hCsplit : (List.range (m + 1)).map (fun i => byteFromBits ((bits.drop (8 * i)).take 8))
      = (List.range m).map (fun i => byteFromBits ((bits.drop (8 * i)).take 8))
        ++ [byteFromBits (bits.drop (8 * m))] := by
    rw [List.range_succ, List.map_append, List.map_cons, List.map_nil, htail]
  have hdropb : ∀ x ∈ bits.drop (8 * m), x < 2 := fun x hx => hb x (List.mem_of_mem_drop hx)
  have hvval : byteFromBits (bits.drop (8 * m)) = bitsVal (bits.drop (8 * m)) :=
    byteFromBits_eq _ hdropb
  have hvlt : byteFromBits (bits.drop (8 * m)) < 16 := by
    rw [hvval]
    have := bitsVal_lt (bits.drop (8 * m)) hdropb
    rw [hdroplen] at this
    simpa using this
  have hClt : ∀ x ∈ (List.range m).map (fun i => byteFromBits ((bits.drop (8 * i)).take 8)),
      x < 256 := by
    intro x hx
    simp only [List.mem_map, List.mem_range] at hx
    obtain ⟨i, _, rfl⟩ := hx
    exact byteFromBits_lt _
      (fun z hz => hb z (List.mem_of_mem_drop (List.mem_of_mem_take hz)))
      (by rw [List.length_take]; exact Nat.min_le_left _ _)
  have hClen : ((List.range m).map
      (fun i => byteFromBits ((bits.drop (8 * i)).take 8))).length = m := by
    simp
  obtain ⟨c0, C', hC⟩ : ∃ c0 C',
      (List.range m).map (fun i => byteFromBits ((bits.drop (8 * i)).take 8)) = c0 :: C' := by
    cases hCm : (List.range m).map (fun i => byteFromBits ((bits.drop (8 * i)).take 8)) with
    | nil =>
      exfalso
      have := congrArg List.length hCm
      rw [hClen] at this
      simp at this
      omega
    | cons a b => exact ⟨a, b, rfl⟩
  have hc0 : c0 < 256 := hClt c0 (by rw [hC]; exact List.mem_cons_self _ _)
  have hC'lt : ∀ x ∈ C', x < 256 := fun x hx =>
    hClt x (by rw [hC]; exact List.mem_cons_of_mem _ hx)
  have hC'len : C'.length = m - 1 := by
    have h := hClen
    rw [hC] at h
    simp at h
    omega
  have hrest2lt : ∀ x ∈ C' ++ [byteFromBits (bits.drop (8 * m)) * 16], x < 256 := by
    intro x hx
    rcases List.mem_append.mp hx with h | h
    · exact hC'lt x h
    · simp at h
      omega
  have hrest2len : (C' ++ [byteFromBits (bits.drop (8 * m)) * 16]).length = m := by
    simp [hC'len]
    omega
  refine ⟨c0 / 16 :: carryShift4 c0 (C' ++ [byteFromBits (bits.drop (8 * m)) * 16]),
    ?_, ?_, ?_, ?_⟩
  · -- the computation itself
    unfold bits_to_bytes
    simp only [if_true, hbc, hmod]
    rw [hCsplit]
    rw [if_pos (⟨by omega, by omega⟩ : 1 < m + 1 ∧ (4 : Nat) ≠ 0)]
    rw [List.getLast?_concat]
    simp only [Option.getD_some, Nat.shiftLeft_eq, Nat.add_sub_cancel]
    rw [show (2 : Nat) ^ 4 = 16 by norm_num]
    rw [if_neg (by omega : ¬ (255 : Nat) < byteFromBits (bits.drop (8 * m)) * 16)]
    rw [set_append_idx _ _ _ _ m hClen.symm]
    rw [show (List.range m).map (fun i => byteFromBits ((bits.drop (8 * i)).take 8))
          ++ [byteFromBits (bits.drop (8 * m)) * 16]
        = c0 :: (C' ++ [byteFromBits (bits.drop (8 * m)) * 16]) by rw [hC]; rfl]
    have hblen : ((c0 :: (C' ++ [byteFromBits (bits.drop (8 * m)) * 16])).reverse).length
        = m + 1 := by
      simp only [List.length_reverse, List.length_cons, hrest2len]
    have hrev2 : 2 ≤ ((c0 :: (C' ++ [byteFromBits (bits.drop (8 * m)) * 16])).reverse).length := by
      rw [hblen]; omega
    rw [cascade_eq 4 _ hrev2]
    rw [List.reverse_append]
    rw [show ∀ z : Nat, ([z] : List Nat).reverse = [z] from fun z => rfl,
      List.singleton_append]
    rw [show ((c0 :: (C' ++ [byteFromBits (bits.drop (8 * m)) * 16])).reverse).length - 1 = m by
      rw [hblen]; omega]
    have hgetd : ((c0 :: (C' ++ [byteFromBits (bits.drop (8 * m)) * 16])).reverse).getD m 0
        = c0 := by
      rw [List.reverse_cons]
      exact getD_append_len _ _ _ m (by rw [List.length_reverse, hrest2len])
    rw [hgetd]
    rw [rev_pairs_carry _ c0 hc0 hrest2lt]
    rw [show (2 : Nat) ^ 4 = 16 by norm_num]
  · -- byte range
    intro y hy
    rcases List.mem_cons.mp hy with rfl | hy
    · omega
    · exact carryShift4_lt _ c0 hrest2lt y hy
  · -- length
    simp only [List.length_cons, carryShift4_length, hrest2len]
  · -- the value
    have hfold : from_bytes_big
        (c0 / 16 :: carryShift4 c0 (C' ++ [byteFromBits (bits.drop (8 * m)) * 16]))
        = List.foldl (fun acc byte => acc * 256 + byte) (c0 / 16)
            (carryShift4 c0 (C' ++ [byteFromBits (bits.drop (8 * m)) * 16])) := by
      show List.foldl _ (0 * 256 + c0 / 16) _ = _
      rw [Nat.zero_mul, Nat.zero_add]
    have hval := carryShift4_val (C' ++ [byteFromBits (bits.drop (8 * m)) * 16]) c0 (c0 / 16)
    have hgetlast : (C' ++ [byteFromBits (bits.drop (8 * m)) * 16]).getLastD c0
        = byteFromBits (bits.drop (8 * m)) * 16 := by
      rw [List.getLastD_eq_getLast?, List.getLast?_concat]
      rfl
    rw [hgetlast, Nat.mul_mod_left, Nat.add_zero] at hval
    rw [show c0 / 16 * 16 + c0 % 16 = c0 by omega] at hval
    have hfold2 : List.foldl (fun acc byte => acc * 256 + byte) c0
        (C' ++ [byteFromBits (bits.drop (8 * m)) * 16])
        = from_bytes_big (c0 :: (C' ++ [byteFromBits (bits.drop (8 * m)) * 16])) := by
      show _ = List.foldl _ (0 * 256 + c0) _
      rw [Nat.zero_mul, Nat.zero_add]
    have happ : from_bytes_big (c0 :: (C' ++ [byteFromBits (bits.drop (8 * m)) * 16]))
        = from_bytes_big (c0 :: C') * 256 + byteFromBits (bits.drop (8 * m)) * 16 := by
      rw [show c0 :: (C' ++ [byteFromBits (bits.drop (8 * m)) * 16])
          = (c0 :: C') ++ [byteFromBits (bits.drop (8 * m)) * 16] from rfl]
      rw [from_bytes_big_append]
      simp [from_bytes_big]
    have hchunkeq : (List.range m).map (fun i => byteFromBits ((bits.drop (8 * i)).take 8))
        = (List.range m).map
            (fun i => byteFromBits (((bits.take (8 * m)).drop (8 * i)).take 8)) := by
      apply List.map_congr_left
      intro i hi
      rw [List.mem_range] at hi
      congr 1
      rw [List.drop_take, List.take_take]
      congr 1
      omega
    have hX : from_bytes_big (c0 :: C') = bitsVal (bits.take (8 * m)) := by
      rw [← hC, hchunkeq]
      exact chunk_val m (bits.take (8 * m))
        (fun x hx => hb x (List.mem_of_mem_take hx))
        (by rw [List.length_take]; omega)
    have hsplit : bitsVal bits
        = bitsVal (bits.take (8 * m)) * 16 + bitsVal (bits.drop (8 * m)) := by
      conv_lhs => rw [← List.take_append_drop (8 * m) bits]
      rw [bitsVal_append, hdroplen]
      norm_num
    rw [hfold]
    have h1 : List.foldl (fun acc byte => acc * 256 + byte) (c0 / 16)
        (carryShift4 c0 (C' ++ [byteFromBits (bits.drop (8 * m)) * 16])) * 16
        = from_bytes_big (c0 :: C') * 256 + byteFromBits (bits.drop (8 * m)) * 16 := by
      rw [hval, hfold2, happ]
    have h2 : bitsVal bits
        = from_bytes_big (c0 :: C') * 16 + byteFromBits (bits.drop (8 * m)) := by
      rw [hsplit, hX, hvval]
    omega

theorem bitsVal_natToBits (len : Nat) : ∀ v : Nat, bitsVal (natToBits v len) = v % 2 ^ len := by
  induction len with
  | zero => intro v; simp [natToBits, bitsVal, Nat.mod_one]
  | succ len ih =>
    intro v
    rw [natToBits_succ, bitsVal_cons, natToBits_length, ih v]
    have : 2 ^ (len + 1) = 2 ^ len * 2 := by rw [pow_succ]
    rw [this, Nat.mod_mul]
    ring

/-- Little-endian conversion is big-endian conversion of the reversed bits. -/
theorem bits_to_int_reverse (l : List Nat) :
    bits_to_int l false = bits_to_int l.reverse true := rfl

/-- The lengths on which big-endian `bits_to_int` decodes the MSB-first value
of the bit sequence: up to one byte, whole bytes, or a four-bit remainder. -/
theorem bits_to_int_val (bits : List Nat) (hb : ∀ x ∈ bits, x < 2)
    (hshape : bits.length ≤ 8 ∨ bits.length % 8 = 0 ∨ bits.length % 8 = 4) :
    bits_to_int bits true = .ok (bitsVal bits) := by
  rcases hshape with h | h | h
  · exact bits_to_int_short bits hb h
  · exact bits_to_int_aligned (bits.length / 8) bits hb (by omega)
  · by_cases h8 : bits.length ≤ 8
    · exact bits_to_int_short bits hb h8
    · have hm : 1 ≤ bits.length / 8 := by omega
      obtain ⟨out, ho, _, _, hv⟩ := btb_mod4 (bits.length / 8) bits hm hb (by omega)
      unfold bits_to_int
      rw [ho]
      simp [Except.map, hv]

/-- C1 amended.  The `bits_to_int` round trip against the reference encoder
holds, for both endiannesses, exactly on the lengths the implementation
handles: at most one byte, a whole number of bytes, or a remainder of four
bits (where the shift distances `excess` and `8 - excess` coincide).  For the
remaining lengths 0–64 the original claim fails (see the counterexample). -/
theorem claim_c1_amended (len : Nat) (h64 : len ≤ 64)
    (hshape : len ≤ 8 ∨ len % 8 = 0 ∨ len % 8 = 4) (v : Nat) (hv : v < 2 ^ len) (be : Bool) :
    bits_to_int (intToBits v len be) be = .ok v := by
  have hlen : (natToBits v len).length = len := natToBits_length v len
  have hb := natToBits_lt_two v len
  have hval : bitsVal (natToBits v len) = v := by
    rw [bitsVal_natToBits]
    exact Nat.mod_eq_of_lt hv
  cases be with
  | true =>
    show bits_to_int (natToBits v len) true = .ok v
    rw [bits_to_int_val (natToBits v len) hb (by rw [hlen]; exact hshape), hval]
  | false =>
    show bits_to_int ((natToBits v len).reverse) false = .ok v
    rw [bits_to_int_reverse, List.reverse_reverse]
    rw [bits_to_int_val (natToBits v len) hb (by rw [hlen]; exact hshape), hval]

theorem claim_c1_amended_witness :
    (12 : Nat) ≤ 64 ∧ ((12 : Nat) ≤ 8 ∨ (12 : Nat) % 8 = 0 ∨ (12 : Nat) % 8 = 4)
    ∧ (2652 : Nat) < 2 ^ 12
    ∧ bits_to_int (intToBits 2652 12 true) true = .ok 2652 :=
  ⟨by omega, by omega, by norm_num,
    claim_c1_amended 12 (by omega) (by omega) 2652 (by norm_num) true⟩

/-- C2 amended.  For every 12-bit input, big-endian `bits_to_bytes` carries
the remainder bits exactly as the tail of a byte-spanning integer: the result
is the 2-byte big-endian encoding of the 12-bit value.  The unused zero
nibble is therefore the high nibble of the first byte, and the second byte's
low nibble carries the four remainder bits. -/
theorem claim_c2_amended (bits : List Nat) (hb : ∀ x ∈ bits, x < 2)
    (hlen : bits.length = 12) :
    bits_to_bytes bits true = .ok [bitsVal bits / 256, bitsVal bits % 256]
    ∧ bitsVal bits / 256 < 16
    ∧ bitsVal bits % 256 % 16 = bitsVal (bits.drop 8) := by
  obtain ⟨out, ho, holt, holen, hov⟩ := btb_mod4 1 bits (le_refl 1) hb (by omega)
  obtain ⟨y0, y1, rfl⟩ : ∃ y0 y1, out = [y0, y1] := by
    cases out with
    | nil => simp at holen
    | cons a t =>
      cases t with
      | nil => simp at holen
      | cons b t2 =>
        cases t2 with
        | nil => exact ⟨a, b, rfl⟩
        | cons c t3 => simp at holen
  have hy1 : y1 < 256 := holt y1 (by simp)
  have hfb : from_bytes_big [y0, y1] = y0 * 256 + y1 := by
    show (0 * 256 + y0) * 256 + y1 = _
    ring
  rw [hfb] at hov
  have hd4 : (bits.drop 8).length = 4 := by rw [List.length_drop]; omega
  have hsplit : bitsVal bits = bitsVal (bits.take 8) * 16 + bitsVal (bits.drop 8) := by
    conv_lhs => rw [← List.take_append_drop 8 bits]
    rw [bitsVal_append, hd4]
    norm_num
  have hdlt : bitsVal (bits.drop 8) < 16 := by
    have := bitsVal_lt (bits.drop 8) (fun x hx => hb x (List.mem_of_mem_drop hx))
    rw [hd4] at this
    simpa using this
  have hWlt : bitsVal bits < 4096 := by
    have := bitsVal_lt bits hb
    rw [hlen] at this
    simpa using this
  have hy0 : y0 = bitsVal bits / 256 := by omega
  have hy1' : y1 = bitsVal bits % 256 := by omega
  refine ⟨?_, by omega, by omega⟩
  rw [ho, hy0, hy1']

theorem claim_c2_amended_witness :
    (∀ x ∈ ([1, 0, 1, 0, 0, 1, 0, 1, 1, 1, 0, 0] : List Nat), x < 2)
    ∧ ([1, 0, 1, 0, 0, 1, 0, 1, 1, 1, 0, 0] : List Nat).length = 12
    ∧ (bits_to_bytes ([1, 0, 1, 0, 0, 1, 0, 1, 1, 1, 0, 0] : List Nat) true
        = .ok [bitsVal ([1, 0, 1, 0, 0, 1, 0, 1, 1, 1, 0, 0] : List Nat) / 256,
            bitsVal ([1, 0, 1, 0, 0, 1, 0, 1, 1, 1, 0, 0] : List Nat) % 256]
      ∧ bitsVal ([1, 0, 1, 0, 0, 1, 0, 1, 1, 1, 0, 0] : List Nat) / 256 < 16
      ∧ bitsVal ([1, 0, 1, 0, 0, 1, 0, 1, 1, 1, 0, 0] : List Nat) % 256 % 16
          = bitsVal (([1, 0, 1, 0, 0, 1, 0, 1, 1, 1, 0, 0] : List Nat).drop 8)) :=
  ⟨by decide, rfl, claim_c2_amended _ (by decide) rfl⟩

/-! ## History tracking (C10) -/

theorem takeLoop_frame (ne : Bool) : ∀ (n : Nat) (s : SpecState) (acc : List Nat),
    ((takeLoop ne n s acc).2).history = s.history
    ∧ ((takeLoop ne n s acc).2).middleware = s.middleware := by
  intro n
  induction n with
  | zero => intro s acc; exact ⟨rfl, rfl⟩
  | succ n ih =>
    intro s acc
    rw [takeLoop]
    by_cases h8 : s.bit_offset = 8
    · rw [if_pos h8]
      cases hb : s.data.get? s.pos with
      | some b => exact ih _ _
      | none => cases ne <;> exact ⟨rfl, rfl⟩
    · rw [if_neg h8]
      cases hcb : s.current_byte with
      | notStarted => exact ih _ _
      | loaded b => exact ih _ _
      | exhausted => exact ⟨rfl, rfl⟩

theorem takeBits_frame (s : SpecState) (count : Nat) (ne : Bool) :
    ((takeBits s count ne).2).history = s.history
    ∧ ((takeBits s count ne).2).middleware = s.middleware := by
  unfold takeBits
  cases hcb : s.current_byte with
  | notStarted =>
    cases hb : s.data.get? s.pos with
    | some b => exact takeLoop_frame ne count _ _
    | none => cases ne <;> exact ⟨rfl, rfl⟩
  | loaded b => exact takeLoop_frame ne count _ _
  | exhausted => exact takeLoop_frame ne count _ _

/-- C10.  `get_history` returns the raw `__history` attribute: `None` when
history tracking was disabled at construction (despite the docstring's
promise of an empty array), the live list otherwise — so after each
successful `expect` the returned list is the previous one with
`(descriptor, value, label)` appended. -/
theorem claim_c10_history :
    (∀ (data : List Nat) (mw : Bool), get_history (mkSpec data false mw) = none)
    ∧ (∀ (data : List Nat) (mw : Bool), get_history (mkSpec data true mw) = some [])
    ∧ (∀ (s : SpecState) (t : SpecType) (ne : Bool) (lbl : Option Nat)
        (l : List (SpecType × Value × Option Nat)) (v : Value) (s' : SpecState),
        s.history = some l → expect s t ne lbl = (.ok (some v), s') →
        get_history s' = some (l ++ [(t, v, lbl)])) := by
  refine ⟨fun _ _ => rfl, fun _ _ => rfl, ?_⟩
  intro s t ne lbl l v s' hh hE
  unfold expect at hE
  by_cases hbl : get_bit_length t < 0
  · rw [if_pos hbl] at hE
    exact absurd (congrArg Prod.fst hE) (by simp)
  · rw [if_neg hbl] at hE
    rcases htb : takeBits s (get_bit_length t).toNat ne with ⟨r, s1⟩
    rw [htb] at hE
    have hs1 : s1.history = some l := by
      have hfr := (takeBits_frame s (get_bit_length t).toNat ne).1
      rw [htb] at hfr
      rw [show ((r, s1).2).history = s1.history from rfl] at hfr
      rw [hfr, hh]
    cases r with
    | error e => simp at hE
    | ok o =>
      cases o with
      | none => simp at hE
      | some bits =>
        dsimp only at hE
        cases hp : parse t bits with
        | error e => rw [hp] at hE; simp at hE
        | ok v1 =>
          rw [hp] at hE
          simp only [hs1, Option.isSome_some, if_true, Option.getD_some] at hE
          cases hmw : s1.middleware with
          | true => simp [hmw] at hE
          | false =>
            simp only [hmw, Bool.false_eq_true, if_false, Prod.mk.injEq,
              Except.ok.injEq, Option.some.injEq] at hE
            obtain ⟨hv, hs⟩ := hE
            subst hv
            rw [← hs]
            rfl

theorem claim_c10_history_witness :
    get_history
      { data := [0], pos := 1,
        history := some [(.bits 8, .bytes [0, 0, 0, 0, 0, 0, 0, 0], none)],
        middleware := false, bit_offset := 8, byte_offset := 0,
        current_byte := .loaded 0 }
    = some ([] ++ [(.bits 8, .bytes [0, 0, 0, 0, 0, 0, 0, 0], none)]) :=
  claim_c10_history.2.2 (mkSpec [0] true false) (.bits 8) false none []
    (.bytes [0, 0, 0, 0, 0, 0, 0, 0]) _ rfl rfl

/-! ## Zero-length arrays (C7) -/

theorem expect_array_zero (s : SpecState) (d : SpecType) (ne : Bool) (lbl : Option Nat)
    (s1 : SpecState) (htake : takeBits s 0 ne = (.ok (some []), s1)) :
    expect s (.array d 0) ne lbl
      = (if s1.middleware then .error .nameError else .ok (some (.list [])),
          if s1.history.isSome
          then { s1 with history := some (s1.history.getD [] ++ [(.array d 0, .list [], lbl)]) }
          else s1) := by
  have h0 : get_bit_length (SpecType.array d 0) = 0 := mul_zero _
  simp only [expect, h0]
  rw [if_neg (by norm_num : ¬ ((0 : Int) < 0)), Int.toNat_zero, htake]
  dsimp only
  rw [show parse (.array d 0) [] = .ok (.list []) from rfl]
  dsimp only
  by_cases hh : s1.history.isSome = true
  · simp only [hh, if_true]
    by_cases hmw : s1.middleware = true <;> simp [hmw]
  · simp only [hh, if_false, Bool.false_eq_true]
    by_cases hmw : s1.middleware = true <;> simp [hmw, hh]

/-- C7 amended.  `Array(d, k).get_bit_length()` is `d.get_bit_length() * k`
for every descriptor and length; a zero-length array parses to the empty list
and consumes no bits whenever the cursor already holds a byte or the fresh
stream is nonempty (where only the first byte is buffered).  The empty-stream
case fails (see the counterexample) because the first byte is loaded eagerly
even for a zero-bit request. -/
theorem claim_c7_amended :
    (∀ (d : SpecType) (k : Int), 0 ≤ k → get_bit_length (.array d k) = get_bit_length d * k)
    ∧ (∀ (d : SpecType) (b : Nat) (rest : List Nat) (th ne : Bool) (lbl : Option Nat),
        (expect (mkSpec (b :: rest) th false) (.array d 0) ne lbl).1 = .ok (some (.list []))
        ∧ (expect (mkSpec (b :: rest) th false) (.array d 0) ne lbl).2.pos = 1
        ∧ (expect (mkSpec (b :: rest) th false) (.array d 0) ne lbl).2.bit_offset = 0)
    ∧ (∀ (d : SpecType) (s : SpecState) (bb : Nat) (ne : Bool) (lbl : Option Nat),
        s.current_byte = .loaded bb → s.middleware = false →
        (expect s (.array d 0) ne lbl).1 = .ok (some (.list []))
        ∧ (expect s (.array d 0) ne lbl).2.pos = s.pos
        ∧ (expect s (.array d 0) ne lbl).2.bit_offset = s.bit_offset) := by
  refine ⟨fun d k _ => rfl, ?_, ?_⟩
  · intro d b rest th ne lbl
    have hexp := expect_array_zero (mkSpec (b :: rest) th false) d ne lbl
      { mkSpec (b :: rest) th false with pos := 1, current_byte := .loaded b } rfl
    rw [hexp]
    refine ⟨rfl, ?_, ?_⟩ <;> (repeat' split) <;> rfl
  · intro d s bb ne lbl hcb hmw
    have htake : takeBits s 0 ne = (.ok (some []), s) := by
      unfold takeBits
      rw [hcb]
      rfl
    have hexp := expect_array_zero s d ne lbl s htake
    rw [hexp, hmw]
    refine ⟨rfl, ?_, ?_⟩ <;> (repeat' split) <;> rfl

theorem claim_c7_amended_witness :
    ((0 : Int) ≤ 5 ∧ get_bit_length (.array (.bits 3) 5) = get_bit_length (.bits 3) * 5)
    ∧ ((expect (mkSpec [9] true false) (.array (.bits 1) 0) false none).1
          = .ok (some (.list []))
        ∧ (expect (mkSpec [9] true false) (.array (.bits 1) 0) false none).2.pos = 1
        ∧ (expect (mkSpec [9] true false) (.array (.bits 1) 0) false none).2.bit_offset = 0)
    ∧ (({ data := [9], pos := 1, history := some [], middleware := false,
            bit_offset := 3, byte_offset := 0, current_byte := .loaded 9 }
              : SpecState).current_byte
            = .loaded 9
        ∧ ({ data := [9], pos := 1, history := some [], middleware := false,
              bit_offset := 3, byte_offset := 0, current_byte := .loaded 9 }
              : SpecState).middleware = false
        ∧ (expect
            { data := [9], pos := 1, history := some [], middleware := false,
                bit_offset := 3, byte_offset := 0, current_byte := .loaded 9 }
            (.array (.bits 1) 0) false none).1 = .ok (some (.list []))) :=
  ⟨⟨by decide, claim_c7_amended.1 (.bits 3) 5 (by decide)⟩,
    claim_c7_amended.2.1 (.bits 1) 9 [] true false none,
    ⟨rfl, rfl,
      (claim_c7_amended.2.2 (.bits 1)
        { data := [9], pos := 1, history := some [], middleware := false,
            bit_offset := 3, byte_offset := 0, current_byte := .loaded 9 }
        9 false none rfl rfl).1⟩⟩

/-! ## Cursor monotonicity (C9) -/

theorem takeLoop_mono (ne : Bool) : ∀ (n : Nat) (s : SpecState) (acc : List Nat)
    (r : Except PyErr (Option (List Nat))) (s' : SpecState), takeLoop ne n s acc = (r, s') →
    s.pos ≤ s'.pos
    ∧ (s.bit_offset ≤ 8 → s'.bit_offset ≤ 8)
    ∧ (¬ isEofTake r → 8 * s.pos + s.bit_offset ≤ 8 * s'.pos + s'.bit_offset) := by
  intro n
  induction n with
  | zero =>
    intro s acc r s' hEq
    rw [takeLoop] at hEq
    injection hEq with h1 h2
    subst h2
    exact ⟨le_refl _, fun h => h, fun _ => le_refl _⟩
  | succ n ih =>
    intro s acc r s' hEq
    rw [takeLoop] at hEq
    by_cases h8 : s.bit_offset = 8
    · rw [if_pos h8] at hEq
      cases hb : s.data.get? s.pos with
      | some b =>
        rw [hb] at hEq
        dsimp only at hEq
        have IH := ih _ _ _ _ hEq
        dsimp only at IH
        obtain ⟨IH1, IH2, IH3⟩ := IH
        refine ⟨by omega, fun _ => IH2 (by omega), fun hr => ?_⟩
        have := IH3 hr
        omega
      | none =>
        rw [hb] at hEq
        dsimp only at hEq
        cases ne with
        | true =>
          rw [if_pos rfl] at hEq
          injection hEq with h1 h2
          subst h1
          subst h2
          exact ⟨le_refl _, fun _ => by dsimp only; omega, fun hr => absurd trivial hr⟩
        | false =>
          rw [if_neg (by simp)] at hEq
          injection hEq with h1 h2
          subst h1
          subst h2
          exact ⟨le_refl _, fun _ => by dsimp only; omega, fun hr => absurd trivial hr⟩
    · rw [if_neg h8] at hEq
      cases hcb : s.current_byte with
      | notStarted =>
        rw [hcb] at hEq
        dsimp only at hEq
        have IH := ih _ _ _ _ hEq
        dsimp only at IH
        obtain ⟨IH1, IH2, IH3⟩ := IH
        exact ⟨IH1, fun h => IH2 (by omega), fun hr => by have := IH3 hr; omega⟩
      | loaded b =>
        rw [hcb] at hEq
        dsimp only at hEq
        have IH := ih _ _ _ _ hEq
        dsimp only at IH
        obtain ⟨IH1, IH2, IH3⟩ := IH
        exact ⟨IH1, fun h => IH2 (by omega), fun hr => by have := IH3 hr; omega⟩
      | exhausted =>
        rw [hcb] at hEq
        dsimp only at hEq
        injection hEq with h1 h2
        subst h2
        exact ⟨le_refl _, fun h => h, fun _ => le_refl _⟩

theorem takeBits_mono (s : SpecState) (count : Nat) (ne : Bool)
    (r : Except PyErr (Option (List Nat))) (s' : SpecState) (hEq : takeBits s count ne = (r, s')) :
    s.pos ≤ s'.pos
    ∧ (s.bit_offset ≤ 8 → s'.bit_offset ≤ 8)
    ∧ (¬ isEofTake r → 8 * s.pos + s.bit_offset ≤ 8 * s'.pos + s'.bit_offset) := by
  unfold takeBits at hEq
  cases hcb : s.current_byte with
  | notStarted =>
    rw [hcb] at hEq
    dsimp only at hEq
    cases hb : s.data.get? s.pos with
    | some b =>
      rw [hb] at hEq
      dsimp only at hEq
      have IH := takeLoop_mono ne count _ _ _ _ hEq
      dsimp only at IH
      obtain ⟨IH1, IH2, IH3⟩ := IH
      exact ⟨by omega, fun h => IH2 h, fun hr => by have := IH3 hr; omega⟩
    | none =>
      rw [hb] at hEq
      dsimp only at hEq
      cases ne with
      | true =>
        rw [if_pos rfl] at hEq
        injection hEq with h1 h2
        subst h1
        subst h2
        exact ⟨le_refl _, fun h => h, fun hr => absurd trivial hr⟩
      | false =>
        rw [if_neg (by simp)] at hEq
        injection hEq with h1 h2
        subst h1
        subst h2
        exact ⟨le_refl _, fun h => h, fun hr => absurd trivial hr⟩
  | loaded b =>
    rw [hcb] at hEq
    dsimp only at hEq
    exact takeLoop_mono ne count _ _ _ _ hEq
  | exhausted =>
    rw [hcb] at hEq
    dsimp only at hEq
    exact takeLoop_mono ne count _ _ _ _ hEq

theorem expect_mono (s : SpecState) (t : SpecType) (ne : Bool) (lbl : Option Nat) :
    s.pos ≤ ((expect s t ne lbl).2).pos
    ∧ (s.bit_offset ≤ 8 → ((expect s t ne lbl).2).bit_offset ≤ 8)
    ∧ (¬ isEofOutcome ((expect s t ne lbl).1) →
        8 * s.pos + s.bit_offset
          ≤ 8 * ((expect s t ne lbl).2).pos + ((expect s t ne lbl).2).bit_offset) := by
  unfold expect
  by_cases hbl : get_bit_length t < 0
  · rw [if_pos hbl]
    exact ⟨le_refl _, fun h => h, fun _ => le_refl _⟩
  · rw [if_neg hbl]
    rcases htb : takeBits s (get_bit_length t).toNat ne with ⟨r, s1⟩
    have TB := takeBits_mono s _ ne r s1 htb
    cases r with
    | error e =>
      dsimp only
      refine ⟨TB.1, TB.2.1, fun hE => TB.2.2 ?_⟩
      intro hT
      apply hE
      cases e <;> simp_all [isEofTake, isEofOutcome]
    | ok o =>
      cases o with
      | none =>
        dsimp only
        exact ⟨TB.1, TB.2.1, fun hE => absurd trivial hE⟩
      | some bits =>
        dsimp only
        cases hp : parse t bits with
        | error e2 =>
          exact ⟨TB.1, TB.2.1, fun _ => TB.2.2 (fun h => h)⟩
        | ok v =>
          refine ⟨?_, ?_, ?_⟩
          · (repeat' split) <;> exact TB.1
          · intro h
            (repeat' split) <;> exact TB.2.1 h
          · intro _
            (repeat' split) <;> exact TB.2.2 (fun h => h)

theorem assert_eof_mono (s : SpecState) :
    s.pos ≤ ((assert_eof s).2).pos
    ∧ ((assert_eof s).2).bit_offset = s.bit_offset
    ∧ 8 * s.pos + s.bit_offset
        ≤ 8 * ((assert_eof s).2).pos + ((assert_eof s).2).bit_offset := by
  unfold assert_eof
  cases hb : s.data.get? s.pos with
  | some b =>
    dsimp only
    refine ⟨Nat.le_succ _, rfl, ?_⟩
    show 8 * s.pos + s.bit_offset ≤ 8 * (s.pos + 1) + s.bit_offset
    omega
  | none =>
    dsimp only
    exact ⟨le_refl _, rfl, le_refl _⟩

/-- C9 amended.  The stream is only ever read forward: across every sequence
of `expect` and `assert_eof` calls the read position is monotonic
non-decreasing; and across every sequence of calls none of which ends in a
stream-exhausted outcome, the full cursor position
`8 * bytes_read + bit_offset` is monotonic non-decreasing with the bit
offset staying in 0–8.  (A mid-read exhaustion resets the bit offset — see
the counterexample.) -/
theorem claim_c9_amended :
    (∀ s s' : SpecState, Relation.ReflTransGen SpecStep s s' → s.pos ≤ s'.pos)
    ∧ (∀ s s' : SpecState, Relation.ReflTransGen GoodStep s s' → s.bit_offset ≤ 8 →
        cursorLE s s' ∧ s'.bit_offset ≤ 8) := by
  constructor
  · intro s s' h
    induction h with
    | refl => exact le_refl _
    | tail _ hstep ih =>
      cases hstep with
      | expectStep t ne lbl => exact le_trans ih (expect_mono _ t ne lbl).1
      | assertEofStep => exact le_trans ih (assert_eof_mono _).1
  · intro s s' h
    induction h with
    | refl => intro h8; exact ⟨⟨le_refl _, le_refl _⟩, h8⟩
    | tail _ hstep ih =>
      intro h8
      obtain ⟨⟨ih1, ih2⟩, ih3⟩ := ih h8
      cases hstep with
      | expectStep t ne lbl hgood =>
        exact ⟨⟨le_trans ih1 (expect_mono _ t ne lbl).1,
            le_trans ih2 ((expect_mono _ t ne lbl).2.2 hgood)⟩,
          (expect_mono _ t ne lbl).2.1 ih3⟩
      | assertEofStep =>
        refine ⟨⟨le_trans ih1 (assert_eof_mono _).1, le_trans ih2 (assert_eof_mono _).2.2⟩, ?_⟩
        rw [(assert_eof_mono _).2.1]
        exact ih3

theorem claim_c9_amended_witness :
    (mkSpec [7] true false).pos
        ≤ ((expect (mkSpec [7] true false) (.int 1 0 true) false none).2).pos
    ∧ (mkSpec [7] true false).bit_offset ≤ 8
    ∧ (cursorLE (mkSpec [7] true false)
          ((expect (mkSpec [7] true false) (.int 1 0 true) false none).2)
        ∧ ((expect (mkSpec [7] true false) (.int 1 0 true) false none).2).bit_offset ≤ 8) :=
  ⟨claim_c9_amended.1 _ _ (Relation.ReflTransGen.single (SpecStep.expectStep _ _ _ _)),
    by decide,
    claim_c9_amended.2 _ _
      (Relation.ReflTransGen.single (GoodStep.expectStep _ _ _ _ (fun h => h)))
      (by decide)⟩

end BinSpec
